import Mathlib

/-!
Shallow embedding of `src/components/SearchClient.tsx` from the
`find-diagrams` repository: a static-data search widget over a list of
icon metadata records.  JavaScript strings are modelled as `String`
values whose character content is accessed through `String.toList`;
the JavaScript string primitives used by the component
(`trim`, `toLowerCase`, `includes`, `split`) are modelled as explicit
recursive functions over `List Char`.
-/

/-- Icon record, mirroring the `Icon` interface of `SearchClient.tsx`. -/
structure Icon where
  name : String
  import_path : String
  provider : String
  module : Option String := none
  docstring : Option String := none
deriving DecidableEq, Repr

/-- Whitespace test used by the model of JavaScript `String.prototype.trim`:
the usual ASCII whitespace characters plus the Unicode space characters
JavaScript treats as WhiteSpace or LineTerminator. -/
def isJsWhitespace (c : Char) : Bool :=
  c.toNat ∈ [9, 10, 11, 12, 13, 32, 160, 0x1680, 0x2000, 0x2001, 0x2002,
    0x2003, 0x2004, 0x2005, 0x2006, 0x2007, 0x2008, 0x2009, 0x200A,
    0x2028, 0x2029, 0x202F, 0x205F, 0x3000, 0xFEFF]

/-- Model of JavaScript `String.prototype.toLowerCase` on a single character
(ASCII range, which covers all data this component handles). -/
def jsToLowerChar (c : Char) : Char :=
  if 65 ≤ c.toNat ∧ c.toNat ≤ 90 then Char.ofNat (c.toNat + 32) else c

/-- Model of JavaScript `String.prototype.toLowerCase`. -/
def jsToLower (l : List Char) : List Char :=
  l.map jsToLowerChar

/-- Model of JavaScript `String.prototype.trim`: drop whitespace from both
ends of the string. -/
def jsTrim (l : List Char) : List Char :=
  (((l.dropWhile isJsWhitespace).reverse.dropWhile isJsWhitespace)).reverse

/-- Model of JavaScript `String.prototype.startsWith`:
`jsIsPrefixOf sub hay` is true when `sub` is a prefix of `hay`. -/
def jsIsPrefixOf : List Char → List Char → Bool
  | [], _ => true
  | _ :: _, [] => false
  | a :: s, b :: t => a == b && jsIsPrefixOf s t

/-- Model of JavaScript `String.prototype.includes`:
`jsIncludes hay sub` is true when `sub` occurs contiguously inside `hay`. -/
def jsIncludes : (hay sub : List Char) → Bool
  | [], sub => sub.isEmpty
  | h :: t, sub => jsIsPrefixOf sub (h :: t) || jsIncludes t sub

/-- Model of JavaScript `String.prototype.split` with a single-character
separator: `"a.b.".split "." = ["a", "b", ""]`, `"".split "." = [""]`. -/
def jsSplitOn (sep : Char) : List Char → List (List Char)
  | [] => [[]]
  | c :: cs =>
    let rest := jsSplitOn sep cs
    if c = sep then [] :: rest
    else (c :: rest.headD []) :: rest.tail

/-- The `filtered` memo of `SearchClient.tsx`:
`if (!query.trim() && !showAll) return [];` then filter by
case-insensitive `includes` on `name` or `import_path`, using the
lowercase form of the (untrimmed) query. -/
def filtered (icons : List Icon) (query : String) (showAll : Bool) : List Icon :=
  if (jsTrim query.toList).isEmpty && !showAll then []
  else
    let lowerQuery := jsToLower query.toList
    icons.filter fun icon =>
      jsIncludes (jsToLower icon.name.toList) lowerQuery ||
      jsIncludes (jsToLower icon.import_path.toList) lowerQuery

/-- Result of `getImportParts` in `SearchClient.tsx`. -/
structure ImportParts where
  className : List Char
  modulePath : List Char
deriving DecidableEq, Repr

/-- `getImportParts` of `SearchClient.tsx`: split `import_path` on `"."`,
the class name is the final segment (`parts[parts.length - 1]`), the module
path is the remaining segments rejoined (`parts.slice(0, -1).join(".")`). -/
def getImportParts (import_path : String) : ImportParts :=
  let parts := jsSplitOn '.' import_path.toList
  { className := parts.getLastD []
    modulePath := List.intercalate ['.'] parts.dropLast }

/-- `normalizeProvider` of `SearchClient.tsx`: case-sensitive `includes`
checks against lowercase keywords, in source order. -/
def normalizeProvider (p : String) : String :=
  if jsIncludes p.toList "aws".toList then "aws"
  else if jsIncludes p.toList "azure".toList then "azure"
  else if jsIncludes p.toList "gcp".toList || jsIncludes p.toList "google".toList then "gcp"
  else if jsIncludes p.toList "k8s".toList || jsIncludes p.toList "kubernetes".toList then "k8s"
  else if jsIncludes p.toList "alibaba".toList then "alibabacloud"
  else "default"

/-- The theme state of the component: the TypeScript union `"light" | "dark"`. -/
inductive Theme where
  | light
  | dark
deriving DecidableEq, Repr

/-- `toggleTheme` of `SearchClient.tsx`:
`setTheme((prev) => (prev === "light" ? "dark" : "light"))`. -/
def toggleTheme : Theme → Theme
  | Theme.light => Theme.dark
  | Theme.dark => Theme.light

/-- Copy-confirmation state: the `copied` state variable together with the
fire times of the clear timers scheduled by past `copyToClipboard` calls. -/
structure CopySys where
  copied : Option String
  timers : List Nat
deriving DecidableEq, Repr

/-- Initial copy-confirmation state: `useState<string | null>(null)`,
no timers scheduled. -/
def initCopySys : CopySys :=
  { copied := none, timers := [] }

/-- `copyToClipboard` of `SearchClient.tsx` at time `now` (clipboard write is
an external effect outside the model): `setCopied(id)` and schedule
`setTimeout(() => setCopied(null), 2000)`. -/
def copyToClipboard (sys : CopySys) (id : String) (now : Nat) : CopySys :=
  { copied := some id, timers := sys.timers ++ [now + 2000] }

/-- A scheduled clear timer firing at time `t`: the callback in the source is
`() => setCopied(null)`, which resets `copied` unconditionally. -/
def fireClearTimer (sys : CopySys) (t : Nat) : CopySys :=
  { copied := none, timers := sys.timers.erase t }

/-- State touched by the Escape branch of `handleKeyDown`: the query text,
whether the search input is focused, and `lastEscapeTime.current`. -/
structure EscState where
  query : String
  focused : Bool
  lastEscapeTime : Nat
deriving DecidableEq, Repr

/-- Initial Escape-handling state: empty query, input not focused,
`lastEscapeTime.current = 0`. -/
def initEscState : EscState :=
  { query := "", focused := false, lastEscapeTime := 0 }

/-- The Escape branch of `handleKeyDown` in `SearchClient.tsx`, pressed at
time `now`: if `now - lastEscapeTime.current < 300` clear the query and blur
the input; in every case store `now` as the last Escape time. -/
def handleEscape (s : EscState) (now : Nat) : EscState :=
  if now - s.lastEscapeTime < 300 then
    { query := "", focused := false, lastEscapeTime := now }
  else
    { s with lastEscapeTime := now }

/-- Specification-level substring containment: `sub` occurs contiguously
inside `hay`. -/
def containsSub (hay sub : List Char) : Prop :=
  ∃ pre post, hay = pre ++ sub ++ post

/-- Specification-level match predicate for the filter, following the spec's
words: the lowercase name or the lowercase import path contains the lowercase
query as a substring. -/
def matchesQuery (query : String) (icon : Icon) : Prop :=
  containsSub (jsToLower icon.name.toList) (jsToLower query.toList) ∨
  containsSub (jsToLower icon.import_path.toList) (jsToLower query.toList)

/-- The filter predicate as the code computes it. -/
def specMatches (query : String) (icon : Icon) : Bool :=
  jsIncludes (jsToLower icon.name.toList) (jsToLower query.toList) ||
  jsIncludes (jsToLower icon.import_path.toList) (jsToLower query.toList)

/-- Sample icon record from the spec's scenario section. -/
def demoIcon1 : Icon := { name := "EC2", import_path := "aws.compute.EC2", provider := "aws" }

/-- Second sample icon record from the spec's scenario section. -/
def demoIcon2 : Icon := { name := "AKS", import_path := "azure.compute.AKS", provider := "azure" }

/-- Sample icon list from the spec's scenario section. -/
def demoIcons : List Icon := [demoIcon1, demoIcon2]

/-! ## Helper lemmas about the string primitives -/

/-- Converting a small code point back and forth is the identity. -/
theorem toNat_charOfNat (n : Nat) (h : n < 55296) : (Char.ofNat n).toNat = n := by
  simp [Char.ofNat, Nat.isValidChar, Char.ofNatAux, Char.toNat, h, UInt32.toNat, UInt32.ofNat']

/-- Lowercasing a character does not change whether it is whitespace. -/
theorem isJsWhitespace_jsToLowerChar (c : Char) :
    isJsWhitespace (jsToLowerChar c) = isJsWhitespace c := by
  unfold jsToLowerChar
  split
  · rename_i h
    have h32 : (Char.ofNat (c.toNat + 32)).toNat = c.toNat + 32 :=
      toNat_charOfNat _ (by omega)
    unfold isJsWhitespace
    rw [h32, decide_eq_decide]
    constructor <;> intro hm <;>
      simp only [List.mem_cons, List.not_mem_nil, or_false] at hm ⊢ <;> omega
  · rfl

/-- Correctness of the JavaScript startsWith model. -/
theorem jsIsPrefixOf_iff : ∀ (sub hay : List Char),
    jsIsPrefixOf sub hay = true ↔ ∃ rest, hay = sub ++ rest
  | [], hay => by simp [jsIsPrefixOf]
  | a :: s, [] => by simp [jsIsPrefixOf]
  | a :: s, b :: t => by
    simp only [jsIsPrefixOf, Bool.and_eq_true, beq_iff_eq, jsIsPrefixOf_iff s t,
      List.cons_append, List.cons.injEq]
    constructor
    · rintro ⟨rfl, r, rfl⟩
      exact ⟨r, rfl, rfl⟩
    · rintro ⟨r, rfl, rfl⟩
      exact ⟨rfl, r, rfl⟩

/-- Correctness of the JavaScript includes model: it decides contiguous
substring containment. -/
theorem jsIncludes_iff : ∀ (hay sub : List Char),
    jsIncludes hay sub = true ↔ containsSub hay sub
  | [], sub => by
    simp only [jsIncludes, containsSub, List.isEmpty_iff]
    constructor
    · rintro rfl
      exact ⟨[], [], rfl⟩
    · rintro ⟨pre, post, h⟩
      rcases List.append_eq_nil.mp h.symm with ⟨h1, h2⟩
      exact (List.append_eq_nil.mp h1).2
  | h :: t, sub => by
    simp only [jsIncludes, Bool.or_eq_true, jsIsPrefixOf_iff, jsIncludes_iff t sub, containsSub]
    constructor
    · rintro (⟨r, hr⟩ | ⟨pre, post, rfl⟩)
      · exact ⟨[], r, by simpa using hr⟩
      · exact ⟨h :: pre, post, rfl⟩
    · rintro ⟨pre, post, hp⟩
      match pre, hp with
      | [], hp => exact Or.inl ⟨post, by simpa using hp⟩
      | h' :: pre', hp =>
        simp only [List.cons_append, List.cons.injEq, List.append_assoc] at hp
        exact Or.inr ⟨pre', post, by simp [hp.2]⟩

/-- Every string includes the empty string. -/
theorem jsIncludes_nil_sub (hay : List Char) : jsIncludes hay [] = true := by
  cases hay <;> simp [jsIncludes, jsIsPrefixOf]

/-- Lowercasing preserves the all-whitespace test. -/
theorem all_isJsWhitespace_jsToLower (l : List Char) :
    (jsToLower l).all isJsWhitespace = l.all isJsWhitespace := by
  simp only [jsToLower, List.all_map]
  simp [Function.comp_def, isJsWhitespace_jsToLowerChar]

/-- A string trims to empty exactly when all its characters are whitespace. -/
theorem jsTrim_eq_nil_iff (l : List Char) :
    jsTrim l = [] ↔ ∀ c ∈ l, isJsWhitespace c := by
  unfold jsTrim
  rw [List.reverse_eq_nil_iff, List.dropWhile_eq_nil_iff]
  constructor
  · intro h c hc
    rcases List.mem_append.mp ((List.takeWhile_append_dropWhile isJsWhitespace l) ▸ hc) with
      h1 | h2
    · exact List.mem_takeWhile_imp h1
    · exact h c (List.mem_reverse.mpr h2)
  · intro h c hc
    exact h c ((List.dropWhile_sublist _).mem (List.mem_reverse.mp hc))

/-- Two strings with the same lowercase form trim to empty together. -/
theorem jsTrim_eq_nil_congr {q1 q2 : List Char} (h : jsToLower q1 = jsToLower q2) :
    (jsTrim q1 = []) ↔ (jsTrim q2 = []) := by
  rw [jsTrim_eq_nil_iff, jsTrim_eq_nil_iff, ← List.all_eq_true, ← List.all_eq_true,
    ← all_isJsWhitespace_jsToLower q1, ← all_isJsWhitespace_jsToLower q2, h]

/-! ## Helper lemmas about the split model -/

/-- Splitting never yields an empty list of segments. -/
theorem jsSplitOn_ne_nil (sep : Char) (l : List Char) : jsSplitOn sep l ≠ [] := by
  cases l with
  | nil => simp [jsSplitOn]
  | cons c cs =>
    simp only [jsSplitOn]
    split <;> simp

/-- A split always has a first segment. -/
theorem jsSplitOn_cons_of_exists (sep : Char) (l : List Char) :
    ∃ q qs, jsSplitOn sep l = q :: qs := by
  rcases h : jsSplitOn sep l with _ | ⟨q, qs⟩
  · exact absurd h (jsSplitOn_ne_nil sep l)
  · exact ⟨q, qs, rfl⟩

/-- Unfolding `List.intercalate` over a list with at least two segments. -/
theorem intercalate_cons₂ (s a b : List Char) (t : List (List Char)) :
    List.intercalate s (a :: b :: t) = a ++ s ++ List.intercalate s (b :: t) := by
  simp only [List.intercalate, List.intersperse_cons_cons, List.flatten_cons, List.append_assoc]

/-- `List.intercalate` over a single segment. -/
theorem intercalate_single (s a : List Char) : List.intercalate s [a] = a := by
  simp [List.intercalate]

/-- `List.intercalate` over a nonempty list with one segment appended. -/
theorem intercalate_append_single (s x : List Char) :
    ∀ ps : List (List Char), ps ≠ [] →
      List.intercalate s (ps ++ [x]) = List.intercalate s ps ++ s ++ x
  | [], h => absurd rfl h
  | [p], _ => by
    simp only [List.cons_append, List.nil_append, intercalate_cons₂, intercalate_single]
  | p :: q :: t, _ => by
    have ih := intercalate_append_single s x (q :: t) (by simp)
    simp only [List.cons_append] at ih ⊢
    rw [intercalate_cons₂, ih, intercalate_cons₂]
    simp [List.append_assoc]

/-- No segment produced by a split contains the separator. -/
theorem not_mem_of_mem_jsSplitOn (sep : Char) :
    ∀ (l p : List Char), p ∈ jsSplitOn sep l → sep ∉ p
  | [], p, hp => by
    simp only [jsSplitOn, List.mem_singleton] at hp
    subst hp
    simp
  | c :: cs, p, hp => by
    simp only [jsSplitOn] at hp
    by_cases hc : c = sep
    · rw [if_pos hc] at hp
      rcases List.mem_cons.mp hp with rfl | h2
      · simp
      · exact not_mem_of_mem_jsSplitOn sep cs p h2
    · rw [if_neg hc] at hp
      obtain ⟨q, qs, hq⟩ := jsSplitOn_cons_of_exists sep cs
      rw [hq] at hp
      simp only [List.headD_cons, List.tail_cons] at hp
      rcases List.mem_cons.mp hp with rfl | h2
      · intro hmem
        rcases List.mem_cons.mp hmem with h3 | h3
        · exact hc h3.symm
        · exact not_mem_of_mem_jsSplitOn sep cs q (hq ▸ List.mem_cons_self q qs) h3
      · exact not_mem_of_mem_jsSplitOn sep cs p (hq ▸ List.mem_cons_of_mem q h2)

/-- Splitting a string that does not contain the separator yields one segment. -/
theorem jsSplitOn_of_not_mem (sep : Char) :
    ∀ l : List Char, sep ∉ l → jsSplitOn sep l = [l]
  | [], _ => rfl
  | c :: cs, h => by
    have hc : c ≠ sep := fun e => h (e ▸ List.mem_cons_self c cs)
    have ih := jsSplitOn_of_not_mem sep cs (fun hm => h (List.mem_cons_of_mem c hm))
    simp [jsSplitOn, if_neg hc, ih]

/-- Rejoining the segments with the separator restores the original string. -/
theorem intercalate_jsSplitOn (sep : Char) :
    ∀ l : List Char, List.intercalate [sep] (jsSplitOn sep l) = l
  | [] => by simp [jsSplitOn, intercalate_single]
  | c :: cs => by
    have ih := intercalate_jsSplitOn sep cs
    obtain ⟨q, qs, hq⟩ := jsSplitOn_cons_of_exists sep cs
    rw [hq] at ih
    by_cases hc : c = sep
    · simp only [jsSplitOn, if_pos hc, hq]
      rw [intercalate_cons₂, ih, hc]
      simp
    · simp only [jsSplitOn, if_neg hc, hq, List.headD_cons, List.tail_cons]
      cases qs with
      | nil =>
        rw [intercalate_single] at ih ⊢
        rw [ih]
      | cons r rs =>
        rw [intercalate_cons₂] at ih ⊢
        rw [List.cons_append, List.cons_append, ih]

/-- Structure of `getImportParts` on an import path containing a dot: the
module path rejoined with a dot and the class name restore the input, and the
class name contains no dot. -/
theorem getImportParts_dot_case (p : String) (h : '.' ∈ p.toList) :
    (getImportParts p).modulePath ++ '.' :: (getImportParts p).className = p.toList ∧
    '.' ∉ (getImportParts p).className := by
  have hne : jsSplitOn '.' p.toList ≠ [] := jsSplitOn_ne_nil _ _
  have hlast : (jsSplitOn '.' p.toList).getLastD [] = (jsSplitOn '.' p.toList).getLast hne := by
    rw [List.getLastD_eq_getLast?, List.getLast?_eq_getLast _ hne]
    rfl
  have hrecon : List.intercalate ['.'] (jsSplitOn '.' p.toList) = p.toList :=
    intercalate_jsSplitOn '.' p.toList
  have hlastmem : (jsSplitOn '.' p.toList).getLast hne ∈ jsSplitOn '.' p.toList :=
    List.getLast_mem hne
  have hlastnodot : '.' ∉ (jsSplitOn '.' p.toList).getLast hne :=
    not_mem_of_mem_jsSplitOn '.' p.toList _ hlastmem
  have hnotone : (jsSplitOn '.' p.toList).dropLast ≠ [] := by
    intro hdrop
    have hsingle : jsSplitOn '.' p.toList = [(jsSplitOn '.' p.toList).getLast hne] := by
      conv_lhs => rw [← List.dropLast_concat_getLast hne]
      rw [hdrop, List.nil_append]
    have h1 : (jsSplitOn '.' p.toList).getLast hne = p.toList := by
      rw [hsingle, intercalate_single] at hrecon
      exact hrecon
    exact hlastnodot (by rw [h1]; exact h)
  constructor
  · show List.intercalate ['.'] (jsSplitOn '.' p.toList).dropLast ++
      '.' :: (jsSplitOn '.' p.toList).getLastD [] = p.toList
    rw [hlast]
    have hap : List.intercalate ['.']
        ((jsSplitOn '.' p.toList).dropLast ++ [(jsSplitOn '.' p.toList).getLast hne]) =
        List.intercalate ['.'] (jsSplitOn '.' p.toList).dropLast ++ ['.'] ++
          (jsSplitOn '.' p.toList).getLast hne :=
      intercalate_append_single _ _ _ hnotone
    rw [List.dropLast_concat_getLast hne, hrecon] at hap
    conv_rhs => rw [hap]
    simp [List.append_assoc]
  · show '.' ∉ (jsSplitOn '.' p.toList).getLastD []
    rw [hlast]
    exact hlastnodot

/-! ## Helper lemma about the filter -/

/-- When the trimmed query is nonempty or showAll is set, the filter takes
its else branch. -/
theorem filtered_else (icons : List Icon) (query : String) (showAll : Bool)
    (h : jsTrim query.toList ≠ [] ∨ showAll = true) :
    filtered icons query showAll = icons.filter (specMatches query) := by
  unfold filtered specMatches
  rw [if_neg]
  intro hc
  rw [Bool.and_eq_true, List.isEmpty_iff, Bool.not_eq_true'] at hc
  rcases h with h | h
  · exact h hc.1
  · rw [h] at hc
    cases hc.2

/-! ## Claims -/

/-- C1: for every icon list, query string, and showAll flag, when the trimmed
query is nonempty or showAll is true, the filter returns exactly the records
of the input list, in input order, whose lowercase name or lowercase import
path contains the lowercase query as a contiguous substring; no record
failing both substring checks is returned. -/
theorem filtered_returns_exactly_matching_records (icons : List Icon) (query : String)
    (showAll : Bool) (h : jsTrim query.toList ≠ [] ∨ showAll = true) :
    filtered icons query showAll = icons.filter (specMatches query) ∧
    ∀ icon, specMatches query icon = true ↔ matchesQuery query icon := by
  refine ⟨filtered_else icons query showAll h, fun icon => ?_⟩
  simp only [specMatches, Bool.or_eq_true, jsIncludes_iff, matchesQuery]

/-- Witness for C1 at the spec's sample list with query "ec". -/
theorem filtered_returns_exactly_matching_records_witness :
    (jsTrim "ec".toList ≠ [] ∨ (false : Bool) = true) ∧
    filtered demoIcons "ec" false = demoIcons.filter (specMatches "ec") ∧
    filtered demoIcons "ec" false = [demoIcon1] := by
  have h : jsTrim "ec".toList ≠ [] ∨ (false : Bool) = true := Or.inl (by decide)
  exact ⟨h, (filtered_returns_exactly_matching_records demoIcons "ec" false h).1, by decide⟩

/-- C2: for every icon list, if the query trims to the empty string and
showAll is false, the filter returns the empty sequence. -/
theorem filtered_empty_trimmed_query_hidden (icons : List Icon) (query : String)
    (h : jsTrim query.toList = []) :
    filtered icons query false = [] := by
  unfold filtered
  rw [if_pos]
  rw [Bool.and_eq_true, List.isEmpty_iff, Bool.not_eq_true']
  exact ⟨h, rfl⟩

/-- Witness for C2 at a whitespace-only query. -/
theorem filtered_empty_trimmed_query_hidden_witness :
    jsTrim "   ".toList = [] ∧ filtered demoIcons "   " false = [] :=
  ⟨by decide, filtered_empty_trimmed_query_hidden demoIcons "   " (by decide)⟩

/-- C3 counterexample: provider normalization is case-SENSITIVE in the code,
so the mixed-case inputs the claim lists do not get their claimed tags:
normalizing "Azure" yields "default", not the azure tag, and likewise for
"Google Cloud" and "Kubernetes". -/
theorem normalizeProvider_mixed_case_yields_default :
    normalizeProvider "Azure" = "default" ∧ normalizeProvider "Azure" ≠ "azure" ∧
    normalizeProvider "Google Cloud" = "default" ∧ normalizeProvider "Kubernetes" = "default" := by
  decide

/-- C3 amended: provider normalization is a case-sensitive keyword
classification scanning in the fixed priority order aws, azure, gcp/google,
k8s/kubernetes, alibaba for the lowercase keywords; the first match determines
the tag and no match yields the default tag.  Lowercase "azure",
"google cloud", "kubernetes" get their tags; the mixed-case "Azure",
"Google Cloud", "Kubernetes" and "Unknown Corp" all yield the default tag;
earlier keywords win when several occur. -/
theorem normalizeProvider_case_sensitive_priority :
    normalizeProvider "aws" = "aws" ∧
    normalizeProvider "amazon aws cloud" = "aws" ∧
    normalizeProvider "azure" = "azure" ∧
    normalizeProvider "gcp" = "gcp" ∧
    normalizeProvider "google cloud" = "gcp" ∧
    normalizeProvider "k8s" = "k8s" ∧
    normalizeProvider "kubernetes" = "k8s" ∧
    normalizeProvider "alibaba cloud" = "alibabacloud" ∧
    normalizeProvider "Unknown Corp" = "default" ∧
    normalizeProvider "Azure" = "default" ∧
    normalizeProvider "Google Cloud" = "default" ∧
    normalizeProvider "Kubernetes" = "default" ∧
    normalizeProvider "awsazure" = "aws" ∧
    normalizeProvider "alibaba k8s" = "k8s" := by
  decide

/-- C4 counterexample: copy item A at time 0, copy item B at time 1000
(inside A's 2000 ms window); when A's scheduled clear fires at time 2000 it
resets the confirmation unconditionally, erasing B's confirmation — the
callback is `() => setCopied(null)` with no guard on the identifier. -/
theorem copy_clear_timer_erases_newer_confirmation :
    (copyToClipboard (copyToClipboard initCopySys "card-0" 0) "card-1" 1000).copied
        = some "card-1" ∧
    (copyToClipboard (copyToClipboard initCopySys "card-0" 0) "card-1" 1000).timers
        = [2000, 3000] ∧
    (fireClearTimer (copyToClipboard (copyToClipboard initCopySys "card-0" 0) "card-1" 1000)
        2000).copied = none ∧
    (fireClearTimer (copyToClipboard (copyToClipboard initCopySys "card-0" 0) "card-1" 1000)
        2000).copied ≠ some "card-1" := by
  decide

/-- C4 amended: copying item A sets copiedId to A; copying item B before A's
2-second window elapses immediately sets copiedId to B, but when any scheduled
clear fires it resets copiedId unconditionally, so A's expiring timer does
erase B's confirmation. -/
theorem copy_overwrites_and_clear_is_unconditional (sys : CopySys) (a b : String)
    (ta tb tf : Nat) :
    (copyToClipboard sys b tb).copied = some b ∧
    (fireClearTimer (copyToClipboard (copyToClipboard sys a ta) b tb) tf).copied = none :=
  ⟨rfl, rfl⟩

/-- C5: filtering with the empty query and showAll set to true returns the
entire input list unchanged. -/
theorem filtered_browse_all_returns_whole_list (icons : List Icon) :
    filtered icons "" true = icons := by
  unfold filtered
  rw [if_neg (by simp)]
  refine List.filter_eq_self.mpr fun a _ => ?_
  simp [jsIncludes_nil_sub, jsToLower]

/-- C6: the derived class name is the final dot-separated segment of the
dotted path and the module path is the preceding segments rejoined with ".":
on "aws.compute.EC2" they are "EC2" and "aws.compute"; when the import path
contains a dot, module path ++ "." ++ class name restores the import path and
the class name contains no dot; an import path without a dot degrades to the
whole string as class name with an empty module path. -/
theorem getImportParts_final_segment_spec :
    getImportParts "aws.compute.EC2" =
      { className := "EC2".toList, modulePath := "aws.compute".toList } ∧
    (∀ p : String, '.' ∉ p.toList →
      getImportParts p = { className := p.toList, modulePath := [] }) ∧
    (∀ p : String, '.' ∈ p.toList →
      (getImportParts p).modulePath ++ '.' :: (getImportParts p).className = p.toList ∧
      '.' ∉ (getImportParts p).className) := by
  refine ⟨by decide, fun p hp => ?_, fun p hp => getImportParts_dot_case p hp⟩
  unfold getImportParts
  rw [jsSplitOn_of_not_mem '.' p.toList hp]
  simp [List.intercalate]

/-- Witness for C6 at a dotless path and a one-dot path. -/
theorem getImportParts_final_segment_spec_witness :
    getImportParts "EC2" = { className := "EC2".toList, modulePath := [] } ∧
    ((getImportParts "a.b").modulePath ++ '.' :: (getImportParts "a.b").className = "a.b".toList ∧
      '.' ∉ (getImportParts "a.b").className) :=
  ⟨getImportParts_final_segment_spec.2.1 "EC2" (by decide),
   getImportParts_final_segment_spec.2.2 "a.b" (by decide)⟩

/-- C7: an Escape press within 300 ms of the previous press clears the query
and removes focus; a press more than 300 ms after the previous press, or a
single first press at any realistic clock value, changes nothing except the
stored last-press timestamp. -/
theorem escape_double_press_spec (s : EscState) (t : Nat) :
    (t - s.lastEscapeTime < 300 →
      handleEscape s t = { query := "", focused := false, lastEscapeTime := t }) ∧
    (300 < t - s.lastEscapeTime →
      handleEscape s t = { s with lastEscapeTime := t }) ∧
    (300 ≤ t → handleEscape initEscState t = { initEscState with lastEscapeTime := t }) := by
  refine ⟨fun h => ?_, fun h => ?_, fun h => ?_⟩
  · unfold handleEscape
    rw [if_pos h]
  · unfold handleEscape
    rw [if_neg (by omega)]
  · unfold handleEscape
    rw [if_neg (by simp only [initEscState]; omega)]

/-- Witness for C7: a double press 100 ms apart clears, a second press 400 ms
after the first does not, and a lone first press does not. -/
theorem escape_double_press_spec_witness :
    handleEscape ⟨"aws", true, 1000⟩ 1100 = ⟨"", false, 1100⟩ ∧
    handleEscape ⟨"aws", true, 1000⟩ 1400 = ⟨"aws", true, 1400⟩ ∧
    handleEscape initEscState 1000 = ⟨"", false, 1000⟩ :=
  ⟨(escape_double_press_spec ⟨"aws", true, 1000⟩ 1100).1 (by decide),
   (escape_double_press_spec ⟨"aws", true, 1000⟩ 1400).2.1 (by decide),
   (escape_double_press_spec initEscState 1000).2.2 (by decide)⟩

/-- C8: two queries with the same lowercase form produce the same filtered
output for every icon list and showAll flag; in particular "AWS" and "aws"
are interchangeable. -/
theorem filtered_case_insensitive (icons : List Icon) (showAll : Bool) (q1 q2 : String)
    (h : jsToLower q1.toList = jsToLower q2.toList) :
    filtered icons q1 showAll = filtered icons q2 showAll := by
  have hc : (jsTrim q1.toList).isEmpty = (jsTrim q2.toList).isEmpty := by
    rw [Bool.eq_iff_iff, List.isEmpty_iff, List.isEmpty_iff]
    exact jsTrim_eq_nil_congr h
  unfold filtered
  rw [hc, h]

/-- Witness for C8 at the queries "AWS" and "aws". -/
theorem filtered_case_insensitive_witness :
    jsToLower "AWS".toList = jsToLower "aws".toList ∧
    filtered demoIcons "AWS" false = filtered demoIcons "aws" false :=
  ⟨by decide, filtered_case_insensitive demoIcons false "AWS" "aws" (by decide)⟩

/-- C9: once the trimmed query is nonempty, the showAll flag has no influence
on the filtered output. -/
theorem filtered_showAll_no_influence_when_query_present (icons : List Icon) (query : String)
    (h : jsTrim query.toList ≠ []) :
    filtered icons query true = filtered icons query false := by
  rw [filtered_else icons query true (Or.inr rfl), filtered_else icons query false (Or.inl h)]

/-- Witness for C9 at the non-matching query "zzz": showAll true still gives
the empty result. -/
theorem filtered_showAll_no_influence_when_query_present_witness :
    jsTrim "zzz".toList ≠ [] ∧
    filtered demoIcons "zzz" true = filtered demoIcons "zzz" false ∧
    filtered demoIcons "zzz" true = [] :=
  ⟨by decide,
   filtered_showAll_no_influence_when_query_present demoIcons "zzz" (by decide),
   by decide⟩

/-- C10: the theme toggle maps light to dark and dark to light, and applying
it twice restores the original theme. -/
theorem toggleTheme_involution :
    toggleTheme Theme.light = Theme.dark ∧ toggleTheme Theme.dark = Theme.light ∧
    ∀ t : Theme, toggleTheme (toggleTheme t) = t := by
  refine ⟨rfl, rfl, fun t => ?_⟩
  cases t <;> rfl
